import Mathlib

/-!
# Verification of the financehelper core against its specification

This file gives a shallow embedding, over `List Char`, of the two core
components of the repository that the claims concern:

* the chunk packer `chunk_summaries` from `src/summarize_embedded.py`,
* the document segmenter `parse_10k_parts_and_items` from `src/parse_parts.py`,
* the reasoning pipeline `generate_reasoning` / `generate_reasoning_for_chunk`
  from `src/summarize_embedded.py`.

Python strings are modelled as `List Char`; `len`, slicing, `strip`,
`split` and `join` are modelled by the corresponding list operations.
The external generation service (`requests.post` to the ollama server,
`raise_for_status`, and extraction of `json()["response"]`) is modelled by
an oracle `GenOracle`; the list of prompts handed to the oracle is
returned alongside each result so that the number of service calls is
observable.  All definitions are structurally recursive, hence kernel
computable on concrete inputs.
-/

namespace FinanceHelper

/-- Characters of a string literal, used to write concrete `List Char` values. -/
def chars (s : String) : List Char := s.data

/-- Python's `\s` / `str.strip` whitespace on ASCII text:
space, tab, newline, carriage return, vertical tab, form feed. -/
def isPyWs (c : Char) : Bool :=
  c = ' ' || c = '\t' || c = '\n' || c = '\r' || c = '\x0b' || c = '\x0c'

/-- Python `str.strip()`: remove leading and trailing whitespace. -/
def strip (l : List Char) : List Char :=
  ((l.dropWhile isPyWs).reverse.dropWhile isPyWs).reverse

/-- The section separator `"=== "` that `chunk_summaries` splits on. -/
def sepEq : List Char := ['=', '=', '=', ' ']

/-- Python `all_summaries.split('=== ')`: split on non-overlapping
occurrences of `"=== "`, scanning left to right, keeping empty pieces
(`"ab".split(sep)` semantics for a non-empty separator). -/
def splitSections : List Char → List (List Char)
  | '=' :: '=' :: '=' :: ' ' :: rest => [] :: splitSections rest
  | c :: cs =>
    match splitSections cs with
    | [] => [[c]]
    | h :: t => (c :: h) :: t
  | [] => [[]]

/-- The serialized text a section contributes to a chunk:
`f"=== {section}" if section != sections[0] else section`
(the comparison in the source is by string value against `sections[0]`). -/
def sectionText (head sec : List Char) : List Char :=
  if sec == head then sec else sepEq ++ sec

/-- The accumulator loop of `chunk_summaries` (lines 44–58 of
`summarize_embedded.py`): skip sections that strip to empty, append a
section to the pending chunk when it fits, otherwise flush the pending
chunk (stripped) and start a new one; finally flush the pending chunk. -/
def chunkLoop (chunk_size : Nat) (head : List Char) :
    List (List Char) → List Char → List (List Char) → List (List Char)
  | [], current, chunks =>
    if current.isEmpty then chunks else chunks ++ [strip current]
  | sec :: rest, current, chunks =>
    if (strip sec).isEmpty then chunkLoop chunk_size head rest current chunks
    else if current.length + (sectionText head sec).length ≤ chunk_size then
      chunkLoop chunk_size head rest (current ++ sectionText head sec) chunks
    else if current.isEmpty then
      chunkLoop chunk_size head rest (sectionText head sec) chunks
    else
      chunkLoop chunk_size head rest (sectionText head sec)
        (chunks ++ [strip current])

/-- `SECDocumentReasoner.chunk_summaries` (lines 26–60 of
`summarize_embedded.py`). -/
def chunk_summaries (all_summaries : List Char) (chunk_size : Nat) :
    List (List Char) :=
  if all_summaries.length ≤ chunk_size then [all_summaries]
  else
    chunkLoop chunk_size ((splitSections all_summaries).headD [])
      (splitSections all_summaries) [] []

/-- The serialized section texts that the packer loop actually keeps:
sections that strip to empty are skipped, every other section contributes
`sectionText`. -/
def sectionTexts (s : List Char) : List (List Char) :=
  ((splitSections s).filter (fun sec => !(strip sec).isEmpty)).map
    (sectionText ((splitSections s).headD []))

/-- Python `sep.join(parts)` for non-empty separators. -/
def pyJoin (sep : List Char) : List (List Char) → List Char
  | [] => []
  | [x] => x
  | x :: xs => x ++ sep ++ pyJoin sep xs

/-- The non-whitespace characters of a string, used to state that the
packer loses at most whitespace. -/
def nonWs (l : List Char) : List Char := l.filter (fun c => !isPyWs c)

/-! ## Basic lemmas about the string model -/

theorem strip_sublist (l : List Char) : List.Sublist (strip l) l := by
  have h1 : List.Sublist ((l.dropWhile isPyWs).reverse.dropWhile isPyWs)
      (l.dropWhile isPyWs).reverse := List.dropWhile_sublist _
  have h2 := h1.reverse
  rw [List.reverse_reverse] at h2
  exact h2.trans (List.dropWhile_sublist _)

theorem strip_length_le (l : List Char) : (strip l).length ≤ l.length :=
  (strip_sublist l).length_le

theorem nonWs_nil : nonWs [] = [] := rfl

theorem nonWs_append (l1 l2 : List Char) :
    nonWs (l1 ++ l2) = nonWs l1 ++ nonWs l2 := by
  simp [nonWs]

theorem nonWs_dropWhile (l : List Char) :
    nonWs (l.dropWhile isPyWs) = nonWs l := by
  induction l with
  | nil => rfl
  | cons c cs ih =>
    by_cases h : isPyWs c
    · rw [List.dropWhile_cons, if_pos h, ih]
      simp [nonWs, h]
    · rw [List.dropWhile_cons, if_neg h]

theorem nonWs_reverse (l : List Char) :
    nonWs l.reverse = (nonWs l).reverse := by
  simp [nonWs, List.filter_reverse]

theorem nonWs_strip (l : List Char) : nonWs (strip l) = nonWs l := by
  rw [strip, nonWs_reverse, nonWs_dropWhile, nonWs_reverse, List.reverse_reverse,
    nonWs_dropWhile]

theorem nonWs_of_strip_empty (l : List Char) (h : (strip l).isEmpty = true) :
    nonWs l = [] := by
  rw [← nonWs_strip]
  rw [List.isEmpty_iff] at h
  simp [h, nonWs]

/-! ## Lemmas about `splitSections` -/

theorem splitSections_ne_nil (l : List Char) : splitSections l ≠ [] := by
  rw [splitSections.eq_def]
  split
  · simp
  · split <;> simp
  · simp

theorem splitSections_cons (c : Char) (cs : List Char)
    (h : ∀ rest, c = '=' → cs = '=' :: '=' :: ' ' :: rest → False) :
    splitSections (c :: cs) = match splitSections cs with
      | [] => [[c]] | h :: t => (c :: h) :: t := by
  rw [splitSections.eq_def]
  split
  · rename_i rest heq
    injection heq with h1 h2
    exact (h rest h1 h2).elim
  · rename_i c' cs' heq
    injection heq with h1 h2
    subst h1; subst h2; rfl
  · rename_i heq
    exact absurd heq (List.cons_ne_nil _ _)

theorem splitSections_cons_of_ne (c : Char) (cs : List Char) (h : c ≠ '=') :
    splitSections (c :: cs) = match splitSections cs with
      | [] => [[c]] | h :: t => (c :: h) :: t :=
  splitSections_cons c cs (fun _ h1 _ => h h1)

/-- A string with no `'='` in it has itself as its only section. -/
theorem splitSections_no_eq (l : List Char) (h : '=' ∉ l) :
    splitSections l = [l] := by
  induction l with
  | nil => rfl
  | cons c cs ih =>
    have hc : c ≠ '=' := fun hh => h (hh ▸ List.mem_cons_self _ _)
    rw [splitSections_cons_of_ne c cs hc,
      ih (fun hm => h (List.mem_cons_of_mem _ hm))]

/-- Splitting then re-joining with the separator is the identity: the
split is an exact partition of the input. -/
theorem pyJoin_splitSections (s : List Char) :
    pyJoin sepEq (splitSections s) = s := by
  induction s using splitSections.induct with
  | case1 rest ih =>
    rw [splitSections]
    cases hsp : splitSections rest with
    | nil => exact absurd hsp (splitSections_ne_nil rest)
    | cons h t =>
      rw [hsp] at ih
      simp [pyJoin, sepEq, ← ih]
  | case2 c cs hne hnil ih =>
    rw [splitSections_cons c cs hne, hnil]
    rw [hnil] at ih
    simp [pyJoin] at ih
    simp [pyJoin, ih]
  | case3 c cs hne h t hcons ih =>
    rw [splitSections_cons c cs hne, hcons]
    rw [hcons] at ih
    cases t with
    | nil => simpa [pyJoin] using congrArg (c :: ·) ih
    | cons t1 ts => simpa [pyJoin] using congrArg (c :: ·) ih
  | case4 => rfl

theorem pyJoin_cons_eq_flatten_map (sep x : List Char) (l : List (List Char)) :
    pyJoin sep (x :: l) = x ++ (l.map (sep ++ ·)).flatten := by
  induction l generalizing x with
  | nil => simp [pyJoin]
  | cons y ys ih => simp [pyJoin, ih y]

/-! ## Lemmas about the packer loop -/

/-- Character accounting for the packer loop: up to whitespace, the
emitted chunks carry exactly the pending chunk plus the serialized texts
of the remaining sections, provided no section strips to empty. -/
theorem chunkLoop_nonWs (limit : Nat) (head : List Char) :
    ∀ (secs : List (List Char)) (current : List Char)
      (chunks : List (List Char)),
      (∀ sec ∈ secs, (strip sec).isEmpty = false) →
      nonWs (chunkLoop limit head secs current chunks).flatten =
        nonWs chunks.flatten ++ nonWs current ++
          nonWs (secs.map (sectionText head)).flatten := by
  intro secs
  induction secs with
  | nil =>
    intro current chunks _
    by_cases hcur : current.isEmpty
    · rw [List.isEmpty_iff] at hcur
      subst hcur
      simp [chunkLoop, nonWs]
    · rw [chunkLoop, if_neg hcur]
      simp [nonWs_append, nonWs_strip, nonWs_nil]
  | cons sec rest ih =>
    intro current chunks hsec
    have hne : (strip sec).isEmpty = false := hsec sec (List.mem_cons_self _ _)
    have hrest : ∀ s ∈ rest, (strip s).isEmpty = false :=
      fun s hs => hsec s (List.mem_cons_of_mem _ hs)
    rw [chunkLoop, if_neg (by simp [hne])]
    by_cases hfit : current.length + (sectionText head sec).length ≤ limit
    · rw [if_pos hfit, ih _ _ hrest]
      simp [nonWs_append, List.append_assoc]
    · rw [if_neg hfit]
      by_cases hemp : current.isEmpty
      · rw [if_pos hemp, ih _ _ hrest]
        rw [List.isEmpty_iff] at hemp
        subst hemp
        simp [nonWs_append, nonWs_nil, List.append_assoc]
      · rw [if_neg hemp, ih _ _ hrest]
        simp [nonWs_append, nonWs_strip, List.append_assoc, nonWs_nil]

/-- Size invariant for the packer loop: every emitted chunk is within the
limit, or is the stripped text of a single oversized serialized section. -/
theorem chunkLoop_bound (limit : Nat) (head : List Char)
    (S : List (List Char)) :
    ∀ (secs : List (List Char)) (current : List Char)
      (chunks : List (List Char)),
      (∀ sec ∈ secs, (strip sec).isEmpty = false → sectionText head sec ∈ S) →
      (current = [] ∨ current.length ≤ limit ∨ current ∈ S) →
      (∀ c ∈ chunks,
        c.length ≤ limit ∨ ∃ st, st ∈ S ∧ c = strip st ∧ limit < st.length) →
      ∀ c ∈ chunkLoop limit head secs current chunks,
        c.length ≤ limit ∨ ∃ st, st ∈ S ∧ c = strip st ∧ limit < st.length := by
  intro secs
  induction secs with
  | nil =>
    intro current chunks _ hcur hch c hc
    by_cases hemp : current.isEmpty
    · rw [chunkLoop, if_pos hemp] at hc
      exact hch c hc
    · rw [chunkLoop, if_neg hemp] at hc
      rcases List.mem_append.mp hc with hc | hc
      · exact hch c hc
      · have hceq : c = strip current := by simpa using hc
        rcases hcur with hcur | hcur | hcur
        · rw [List.isEmpty_iff] at hemp
          exact absurd hcur hemp
        · exact Or.inl (hceq ▸ (strip_length_le current).trans hcur)
        · by_cases hlen : current.length ≤ limit
          · exact Or.inl (hceq ▸ (strip_length_le current).trans hlen)
          · exact Or.inr ⟨current, hcur, hceq, Nat.lt_of_not_le hlen⟩
  | cons sec rest ih =>
    intro current chunks hsec hcur hch c hc
    by_cases hne : (strip sec).isEmpty
    · rw [chunkLoop, if_pos hne] at hc
      exact ih current chunks
        (fun s hs h => hsec s (List.mem_cons_of_mem _ hs) h) hcur hch c hc
    · rw [chunkLoop, if_neg hne] at hc
      have hstS : sectionText head sec ∈ S :=
        hsec sec (List.mem_cons_self _ _) (Bool.eq_false_iff.mpr hne)
      have hrest : ∀ s ∈ rest, (strip s).isEmpty = false → sectionText head s ∈ S :=
        fun s hs h => hsec s (List.mem_cons_of_mem _ hs) h
      by_cases hfit : current.length + (sectionText head sec).length ≤ limit
      · rw [if_pos hfit] at hc
        refine ih _ chunks hrest (Or.inr (Or.inl ?_)) hch c hc
        simpa using hfit
      · rw [if_neg hfit] at hc
        by_cases hemp : current.isEmpty
        · rw [if_pos hemp] at hc
          exact ih _ chunks hrest (Or.inr (Or.inr hstS)) hch c hc
        · rw [if_neg hemp] at hc
          refine ih _ _ hrest (Or.inr (Or.inr hstS)) ?_ c hc
          intro c' hc'
          rcases List.mem_append.mp hc' with hc' | hc'
          · exact hch c' hc'
          · have hceq : c' = strip current := by simpa using hc'
            rcases hcur with hcur | hcur | hcur
            · rw [List.isEmpty_iff] at hemp
              exact absurd hcur hemp
            · exact Or.inl (hceq ▸ (strip_length_le current).trans hcur)
            · by_cases hlen : current.length ≤ limit
              · exact Or.inl (hceq ▸ (strip_length_le current).trans hlen)
              · exact Or.inr ⟨current, hcur, hceq, Nat.lt_of_not_le hlen⟩

/-! ## Claim C1: losslessness of packing -/

/-- C1, counterexample: packing is **not** lossless.  On the input
`"ab "` with limit `2`, the multi-chunk path strips the pending chunk
before emitting it, so the concatenation of the chunks is `"ab"`, not the
original `"ab "`: a character was dropped. -/
theorem c1_counterexample :
    (chunk_summaries (chars "ab ") 2).flatten ≠ chars "ab " ∧
      (chunk_summaries (chars "ab ") 2).flatten = chars "ab" := by
  constructor
  · decide
  · decide

/-- C1, amended: packing is lossless exactly in the single-chunk case
(input length within the limit); in general each emitted chunk is
whitespace-stripped and whitespace-only sections are dropped, so for any
limit, and any input none of whose `"=== "`-sections is whitespace-only
and none of whose later sections equals the first section by value, the
concatenation of all chunks reproduces the input up to removal of
whitespace characters. -/
theorem c1_amended (s : List Char) (limit : Nat)
    (hkeep : ∀ sec ∈ splitSections s, (strip sec).isEmpty = false)
    (hhead : ∀ sec ∈ (splitSections s).tail, sec ≠ (splitSections s).headD []) :
    nonWs (chunk_summaries s limit).flatten = nonWs s ∧
      (s.length ≤ limit → (chunk_summaries s limit).flatten = s) := by
  constructor
  · by_cases hlen : s.length ≤ limit
    · rw [chunk_summaries, if_pos hlen]
      simp
    · rw [chunk_summaries, if_neg hlen]
      rw [chunkLoop_nonWs limit _ _ [] [] hkeep]
      obtain ⟨hd, tl, hsec⟩ := List.exists_cons_of_ne_nil (splitSections_ne_nil s)
      rw [hsec] at hhead hkeep ⊢
      simp only [List.headD_cons, List.tail_cons] at hhead ⊢
      have hmap : tl.map (sectionText hd) = tl.map (sepEq ++ ·) := by
        refine List.map_congr_left (fun sec hsecm => ?_)
        have : sec ≠ hd := hhead sec hsecm
        simp [sectionText, this]
      have hmap2 : (hd :: tl).map (sectionText hd) =
          hd :: tl.map (sepEq ++ ·) := by
        rw [List.map_cons, hmap]
        simp [sectionText]
      rw [hmap2]
      have : (hd :: tl.map (sepEq ++ ·)).flatten = pyJoin sepEq (hd :: tl) := by
        rw [pyJoin_cons_eq_flatten_map]
        simp
      rw [List.flatten_nil, nonWs_nil, this, ← hsec, pyJoin_splitSections]
      simp
  · intro hlen
    rw [chunk_summaries, if_pos hlen]
    simp

/-- Witness for the amended C1 at the concrete input `"a=== b"` with
limit `3`: both hypotheses hold and the conclusion follows. -/
theorem c1_amended_witness :
    (∀ sec ∈ splitSections (chars "a=== b"), (strip sec).isEmpty = false) ∧
      (∀ sec ∈ (splitSections (chars "a=== b")).tail,
        sec ≠ (splitSections (chars "a=== b")).headD []) ∧
      (nonWs (chunk_summaries (chars "a=== b") 3).flatten =
          nonWs (chars "a=== b") ∧
        ((chars "a=== b").length ≤ 3 →
          (chunk_summaries (chars "a=== b") 3).flatten = chars "a=== b")) :=
  ⟨by decide, by decide, c1_amended (chars "a=== b") 3 (by decide) (by decide)⟩

/-! ## Claim C4: chunk size bound -/

/-- C4, counterexample: the claim "each chunk either has serialized size
≤ limit or consists of a single block whose own serialized size exceeds
the limit; a block is never truncated" fails literally: on input
`"aaaa "` with limit `3` the sole chunk `"aaaa"` exceeds the limit but is
not equal to any input block — the single oversized block `"aaaa "` was
truncated by the final `strip`. -/
theorem c4_counterexample :
    chunk_summaries (chars "aaaa ") 3 = [chars "aaaa"] ∧
      ¬((chars "aaaa").length ≤ 3) ∧
      chars "aaaa" ∉ sectionTexts (chars "aaaa ") := by
  refine ⟨by decide, by decide, by decide⟩

/-- C4, amended: every chunk returned by the packer either has size
within the limit, or is the whitespace-**stripped** text of a single
serialized block whose own size exceeds the limit.  Blocks are never
split across chunks; the only truncation is the stripping of surrounding
whitespace on emission. -/
theorem c4_amended (s : List Char) (limit : Nat) (c : List Char)
    (hc : c ∈ chunk_summaries s limit) :
    c.length ≤ limit ∨
      ∃ st, st ∈ sectionTexts s ∧ c = strip st ∧ limit < st.length := by
  by_cases hlen : s.length ≤ limit
  · rw [chunk_summaries, if_pos hlen] at hc
    have : c = s := by simpa using hc
    exact Or.inl (this ▸ hlen)
  · rw [chunk_summaries, if_neg hlen] at hc
    refine chunkLoop_bound limit _ (sectionTexts s) _ [] []
      (fun sec hsec hne => ?_) (Or.inl rfl) (by simp) c hc
    exact List.mem_map_of_mem _ (List.mem_filter.mpr ⟨hsec, by simp [hne]⟩)

/-- Witness for the amended C4 at the concrete input `"aaaa "` with limit
`3`: the sole chunk `"aaaa"` is the stripped text of the oversized block
`"aaaa "`. -/
theorem c4_amended_witness :
    chars "aaaa" ∈ chunk_summaries (chars "aaaa ") 3 ∧
      ((chars "aaaa").length ≤ 3 ∨
        ∃ st, st ∈ sectionTexts (chars "aaaa ") ∧
          chars "aaaa" = strip st ∧ 3 < st.length) :=
  ⟨by decide, c4_amended (chars "aaaa ") 3 (chars "aaaa") (by decide)⟩

/-!
## The segmenter of `parse_parts.py`

`parse_10k_parts_and_items` uses two compiled patterns with
`re.IGNORECASE | re.MULTILINE`:

* parts: `^\s*(PART\s+[IVXLC]+)\s*$`
* items: `^\s*(Item\s+\d+[A-Z]?\.?\s+.+?)(?=\n|$)`

For these patterns backtracking resolves deterministically:
each `\s*`/`\s+`/`\d+`/`[IVXLC]+` that is followed by a piece that cannot
consume its characters takes its maximal run; the trailing `\s*$` of the
parts pattern takes the **longest** whitespace prefix after which the next
character is a newline or the end of input; the lazy `.+?(?=\n|$)` of the
items pattern consumes exactly the rest of the line (at least one
character, `.` never matching a newline), where `\s+` before it backtracks
from its maximal run down to one character.  `re.finditer` attempts
matches at each position from left to right (`^` restricting to the start
of the text or positions just after a newline) and resumes after the end
of each match.  The functions below implement exactly that.
-/

/-- Case-insensitive (ASCII lowercase-folding) prefix test, for matching
the literal `PART` / `Item` under `re.IGNORECASE`. -/
def lowEq : List Char → List Char → Bool
  | [], _ => true
  | _ :: _, [] => false
  | p :: ps, c :: cs => (c.toLower == p) && lowEq ps cs

/-- `[IVXLC]` under `re.IGNORECASE`. -/
def isRomanC (c : Char) : Bool :=
  c.toLower == 'i' || c.toLower == 'v' || c.toLower == 'x' ||
    c.toLower == 'l' || c.toLower == 'c'

/-- `$` in MULTILINE mode: the position before a newline, or the end. -/
def atLineEnd : List Char → Bool
  | [] => true
  | c :: _ => c == '\n'

/-- Greedy `\s*$` after the roman numeral: the largest `k` at most the
length of the whitespace run of `r` such that dropping `k` characters
lands on a line end; `none` when no such `k` exists. -/
def wsEndSearch (r : List Char) : Nat → Option Nat
  | 0 => if atLineEnd r then some 0 else none
  | k + 1 =>
    if atLineEnd (r.drop (k + 1)) then some (k + 1) else wsEndSearch r k

/-- `\s+.+?(?=\n|$)`: try `k` whitespace characters for `\s+` from the
maximal run downwards; the lazy `.+?` with the lookahead then consumes
exactly the rest of the line, which must be non-empty and must not start
with a newline.  Returns the total number of characters consumed. -/
def contSearch (r : List Char) : Nat → Option Nat
  | 0 => none
  | k + 1 =>
    match r.drop (k + 1) with
    | [] => contSearch r k
    | c :: rest =>
      if c == '\n' then contSearch r k
      else some ((k + 1) + 1 + (rest.takeWhile (fun d => d != '\n')).length)

def contMatch (r : List Char) : Option Nat :=
  contSearch r ((r.takeWhile isPyWs).length)

/-- `\.?` followed by `\s+.+?(?=\n|$)`: greedily take the dot, backtrack
to skipping it when the continuation fails. -/
def dotCont (r : List Char) : Option Nat :=
  match r with
  | '.' :: rest =>
    (match contMatch rest with
     | some n => some (n + 1)
     | none => contMatch r)
  | _ => contMatch r

/-- `[A-Z]?` (IGNORECASE, hence any ASCII letter) followed by
`\.?\s+.+?(?=\n|$)`: greedily take the letter, backtrack to skipping it
when the continuation fails. -/
def letterDotCont (r : List Char) : Option Nat :=
  match r with
  | c :: rest =>
    if c.isAlpha then
      (match dotCont rest with
       | some n => some (n + 1)
       | none => dotCont r)
    else dotCont r
  | [] => dotCont r

/-- Attempt the parts pattern `^\s*(PART\s+[IVXLC]+)\s*$` at the start of
`t` (which the scanner only calls at line starts).  Returns the text of
capture group 1 and the total length of the match. -/
def partsMatchAt (t : List Char) : Option (List Char × Nat) :=
  let w := (t.takeWhile isPyWs).length
  let r := t.drop w
  if lowEq (chars "part") r then
    let w2 := ((r.drop 4).takeWhile isPyWs).length
    if w2 = 0 then none
    else
      let rom := ((r.drop 4).drop w2).takeWhile isRomanC
      if rom.length = 0 then none
      else
        let r3 := ((r.drop 4).drop w2).drop rom.length
        match wsEndSearch r3 ((r3.takeWhile isPyWs).length) with
        | none => none
        | some k =>
          some (r.take (4 + w2 + rom.length), w + 4 + w2 + rom.length + k)
  else none

/-- Attempt the items pattern `^\s*(Item\s+\d+[A-Z]?\.?\s+.+?)(?=\n|$)`
at the start of `t`.  Returns the text of capture group 1 and the total
length of the match (which coincide up to the leading whitespace, since
the group extends to the end of the match). -/
def itemsMatchAt (t : List Char) : Option (List Char × Nat) :=
  let w := (t.takeWhile isPyWs).length
  let r := t.drop w
  if lowEq (chars "item") r then
    let w1 := ((r.drop 4).takeWhile isPyWs).length
    if w1 = 0 then none
    else
      let d := ((r.drop 4).drop w1).takeWhile Char.isDigit
      if d.length = 0 then none
      else
        match letterDotCont (((r.drop 4).drop w1).drop d.length) with
        | none => none
        | some n =>
          some (r.take (4 + w1 + d.length + n), w + 4 + w1 + d.length + n)
  else none

/-- One match produced by `re.finditer`: the capture group text, the
match start offset, and the match end offset. -/
structure REMatch where
  group : List Char
  mstart : Nat
  mend : Nat
deriving DecidableEq

/-- The scanning loop of `re.finditer` for a `^`-anchored pattern: walk
the text character by character tracking the absolute position, whether
the current position is a line start, and how many characters of a
previous match still have to be skipped; attempt the pattern at every
line start outside previous matches and resume after each match's end. -/
def reScan (matchAt : List Char → Option (List Char × Nat)) :
    List Char → Nat → Nat → Bool → List REMatch
  | [], _, _, _ => []
  | c :: cs, pos, skip + 1, _ => reScan matchAt cs (pos + 1) skip (c == '\n')
  | c :: cs, pos, 0, atLS =>
    if atLS then
      match matchAt (c :: cs) with
      | some (g, len) =>
        ⟨g, pos, pos + len⟩ :: reScan matchAt cs (pos + 1) (len - 1) (c == '\n')
      | none => reScan matchAt cs (pos + 1) 0 (c == '\n')
    else reScan matchAt cs (pos + 1) 0 (c == '\n')

/-- `re.finditer(pattern, text)` for a `^`-anchored pattern. -/
def reFinditer (matchAt : List Char → Option (List Char × Nat))
    (text : List Char) : List REMatch :=
  reScan matchAt text 0 0 true

/-- Python `str.upper()` (ASCII folding). -/
def pyUpper (l : List Char) : List Char := l.map Char.toUpper

/-- Line 10 of `parse_parts.py`:
`[(m.group(1).upper().strip(), m.start()) for m in parts_pattern.finditer(text)]`. -/
def raw_parts (text : List Char) : List (List Char × Nat) :=
  (reFinditer partsMatchAt text).map
    (fun m => (strip (pyUpper m.group), m.mstart))

/-- Line 13: `valid_order = ["PART I", "PART II", "PART III", "PART IV"]`. -/
def validOrder : List (List Char) :=
  [chars "PART I", chars "PART II", chars "PART III", chars "PART IV"]

/-- Python slicing `text[a:b]` (for `0 ≤ a`, clamping like Python). -/
def slice (text : List Char) (a b : Nat) : List Char :=
  (text.drop a).take (b - a)

/-- Assignment `d[k] = v` on a Python dict modelled as an ordered
association list: an existing key keeps its position and gets the new
value, a new key is appended. -/
def pyDictSet {α β : Type} [DecidableEq α] :
    List (α × β) → α → β → List (α × β)
  | [], k, v => [(k, v)]
  | (k', v') :: rest, k, v =>
    if k' = k then (k, v) :: rest else (k', v') :: pyDictSet rest k v

/-- Lookup `d[k]` / `k in d` on the same dict model. -/
def pyLookup {α β : Type} [DecidableEq α] : List (α × β) → α → Option β
  | [], _ => none
  | (k', v') :: rest, k => if k' = k then some v' else pyLookup rest k

/-- `raw_parts[i + 1][1] if i + 1 < len(raw_parts) else len(text)`. -/
def nextStart (textLen : Nat) : List (List Char × Nat) → Nat
  | (_, s2) :: _ => s2
  | [] => textLen

/-- Lines 17–21 of `parse_parts.py`: slice a text block for every raw
part header and store the blocks of canonical labels in a dict (a
duplicate label overwrites the stored block). -/
def buildBlocks (text : List Char) :
    List (List Char × Nat) → List (List Char × List Char) →
      List (List Char × List Char)
  | [], d => d
  | (title, st) :: rest, d =>
    buildBlocks text rest
      (if title ∈ validOrder then
        pyDictSet d title (slice text st (nextStart text.length rest))
      else d)

def part_blocks (text : List Char) : List (List Char × List Char) :=
  buildBlocks text (raw_parts text) []

/-- `re.sub(r'\s{2,}', ' ', s)`: replace every maximal run of two or
more whitespace characters by a single space (a lone whitespace
character is left unchanged).  The boolean is true while skipping the
remainder of a run already replaced. -/
def collapseAux : List Char → Bool → List Char
  | [], _ => []
  | c :: cs, true =>
    if isPyWs c then collapseAux cs true else c :: collapseAux cs false
  | c :: cs, false =>
    if isPyWs c then
      match cs with
      | [] => [c]
      | c2 :: _ =>
        if isPyWs c2 then ' ' :: collapseAux cs true
        else c :: collapseAux cs false
    else c :: collapseAux cs false

def collapseWs (l : List Char) : List Char := collapseAux l false

/-- Python `s.replace('..', '.')`: replace non-overlapping occurrences
left to right in a single pass (so `"..."` becomes `".."`). -/
def replaceDD : List Char → List Char
  | '.' :: '.' :: rest => '.' :: replaceDD rest
  | c :: rest => c :: replaceDD rest
  | [] => []

/-- Lines 39 and 45: `item_title = m.group(1).strip()` followed by
`re.sub(r'\s{2,}', ' ', item_title).replace('..', '.').strip()`. -/
def normTitle (g : List Char) : List Char :=
  strip (replaceDD (collapseWs (strip g)))

/-- Item matches inside one part block. -/
def item_matches (part_text : List Char) : List REMatch :=
  reFinditer itemsMatchAt part_text

/-- `item_matches[j + 1].start() if j + 1 < len(item_matches) else len(part_text)`. -/
def nextItemStart (textLen : Nat) : List REMatch → Nat
  | m2 :: _ => m2.mstart
  | [] => textLen

/-- Lines 38–45: the `(title, content)` pair produced for each item
match, in document order, before they are inserted into the dict. -/
def itemEntries (part_text : List Char) : List REMatch →
    List (List Char × List Char)
  | [] => []
  | m :: rest =>
    (normTitle m.group,
      strip (slice part_text m.mend (nextItemStart part_text.length rest)))
      :: itemEntries part_text rest

/-- Line 46 executed for every item match:
`parsed[part][item_title] = item_content` on an initially empty dict. -/
def buildItems (part_text : List Char) (ims : List REMatch) :
    List (List Char × List Char) :=
  (itemEntries part_text ims).foldl (fun d e => pyDictSet d e.1 e.2) []

/-- One iteration of the `for part in valid_order` loop (lines 26–46):
skip labels without a stored block, skip blocks with no item match, and
otherwise store the item dict under the part label. -/
def parseStep (blocks : List (List Char × List Char))
    (parsed : List (List Char × List (List Char × List Char)))
    (part : List Char) : List (List Char × List (List Char × List Char)) :=
  match pyLookup blocks part with
  | none => parsed
  | some part_text =>
    if (item_matches part_text).isEmpty then parsed
    else pyDictSet parsed part (buildItems part_text (item_matches part_text))

/-- `parse_10k_parts_and_items` (lines 4–48 of `parse_parts.py`). -/
def parse_10k_parts_and_items (text : List Char) :
    List (List Char × List (List Char × List Char)) :=
  validOrder.foldl (parseStep (part_blocks text)) []

/-! ## Lemmas about the dict model -/

theorem pyLookup_pyDictSet {α β : Type} [DecidableEq α]
    (d : List (α × β)) (k k' : α) (v : β) :
    pyLookup (pyDictSet d k v) k' = if k' = k then some v else pyLookup d k' := by
  induction d with
  | nil =>
    by_cases h : k' = k
    · subst h
      simp [pyDictSet, pyLookup]
    · have h' : ¬k = k' := fun hh => h hh.symm
      simp [pyDictSet, pyLookup, h, h']
  | cons kv rest ih =>
    obtain ⟨a, b⟩ := kv
    by_cases hak : a = k
    · subst hak
      by_cases h : k' = a
      · subst h
        simp [pyDictSet, pyLookup]
      · have h' : ¬a = k' := fun hh => h hh.symm
        simp [pyDictSet, pyLookup, h, h']
    · by_cases h : a = k'
      · subst h
        have h2 : ¬a = k := hak
        have h3 : ¬k = a := fun hh => hak hh.symm
        simp [pyDictSet, pyLookup, h2, h3]
      · have h2 : ¬k' = a := fun hh => h hh.symm
        simp [pyDictSet, pyLookup, hak, h, h2, ih]

theorem pyDictSet_ne_nil {α β : Type} [DecidableEq α]
    (d : List (α × β)) (k : α) (v : β) : pyDictSet d k v ≠ [] := by
  cases d with
  | nil => simp [pyDictSet]
  | cons kv rest =>
    obtain ⟨a, b⟩ := kv
    by_cases h : a = k <;> simp [pyDictSet, h]

theorem mem_pyDictSet {α β : Type} [DecidableEq α]
    (d : List (α × β)) (k : α) (v : β) (a : α) (b : β) :
    (a, b) ∈ pyDictSet d k v → (a = k ∧ b = v) ∨ (a, b) ∈ d := by
  induction d with
  | nil =>
    intro h
    simp only [pyDictSet, List.mem_singleton] at h
    exact Or.inl ⟨congrArg Prod.fst h, congrArg Prod.snd h⟩
  | cons kv rest ih =>
    obtain ⟨a', b'⟩ := kv
    intro h
    simp only [pyDictSet] at h
    by_cases hk : a' = k
    · rw [if_pos hk] at h
      rcases List.mem_cons.mp h with h | h
      · exact Or.inl ⟨congrArg Prod.fst h, congrArg Prod.snd h⟩
      · exact Or.inr (List.mem_cons_of_mem _ h)
    · rw [if_neg hk] at h
      rcases List.mem_cons.mp h with h | h
      · exact Or.inr (by rw [h]; exact List.mem_cons_self _ _)
      · rcases ih h with h | h
        · exact Or.inl h
        · exact Or.inr (List.mem_cons_of_mem _ h)

theorem keys_pyDictSet {α β : Type} [DecidableEq α]
    (d : List (α × β)) (k : α) (v : β) :
    (pyDictSet d k v).map Prod.fst =
      if k ∈ d.map Prod.fst then d.map Prod.fst
      else d.map Prod.fst ++ [k] := by
  induction d with
  | nil => simp [pyDictSet]
  | cons kv rest ih =>
    obtain ⟨a, b⟩ := kv
    by_cases hk : a = k
    · subst hk
      simp [pyDictSet]
    · have hk' : ¬k = a := fun hh => hk hh.symm
      by_cases hmem : k ∈ rest.map Prod.fst
      · simp [pyDictSet, hk, ih, hmem, hk']
      · simp [pyDictSet, hk, ih, hmem, hk']

theorem nodupKeys_pyDictSet {α β : Type} [DecidableEq α]
    (d : List (α × β)) (k : α) (v : β)
    (h : (d.map Prod.fst).Nodup) :
    ((pyDictSet d k v).map Prod.fst).Nodup := by
  rw [keys_pyDictSet]
  by_cases hmem : k ∈ d.map Prod.fst
  · simpa [hmem] using h
  · rw [if_neg hmem]
    exact List.Nodup.append h (List.nodup_singleton k)
      (List.disjoint_singleton.mpr hmem)

theorem nodupKeys_foldl_pyDictSet {α β : Type} [DecidableEq α]
    (l : List (α × β)) :
    ∀ (d : List (α × β)), (d.map Prod.fst).Nodup →
      (((l.foldl (fun d e => pyDictSet d e.1 e.2) d)).map Prod.fst).Nodup := by
  induction l with
  | nil => intro d h; simpa using h
  | cons e rest ih =>
    intro d h
    exact ih (pyDictSet d e.1 e.2) (nodupKeys_pyDictSet d e.1 e.2 h)

theorem foldl_pyDictSet_ne_nil {α β : Type} [DecidableEq α]
    (l : List (α × β)) :
    ∀ (d : List (α × β)), d ≠ [] ∨ l ≠ [] →
      l.foldl (fun d e => pyDictSet d e.1 e.2) d ≠ [] := by
  induction l with
  | nil =>
    intro d h
    rcases h with h | h
    · simpa using h
    · exact absurd rfl h
  | cons e rest ih =>
    intro d _
    exact ih (pyDictSet d e.1 e.2) (Or.inl (pyDictSet_ne_nil d e.1 e.2))

/-- The value stored under `k` after a sequence of dict assignments: the
value of the **last** assignment to `k`, if any. -/
def lastLookup {α β : Type} [DecidableEq α] (k : α) :
    List (α × β) → Option β
  | [] => none
  | (a, b) :: rest =>
    match lastLookup k rest with
    | some r => some r
    | none => if a = k then some b else none

theorem pyLookup_foldl_pyDictSet {α β : Type} [DecidableEq α]
    (l : List (α × β)) :
    ∀ (d : List (α × β)) (k : α),
      pyLookup (l.foldl (fun d e => pyDictSet d e.1 e.2) d) k =
        match lastLookup k l with
        | some v => some v
        | none => pyLookup d k := by
  induction l with
  | nil => intro d k; simp [lastLookup]
  | cons e rest ih =>
    intro d k
    obtain ⟨a, b⟩ := e
    rw [List.foldl_cons, ih (pyDictSet d a b) k]
    cases hrest : lastLookup k rest with
    | some r => simp [lastLookup, hrest]
    | none =>
      rw [pyLookup_pyDictSet]
      by_cases hk : a = k
      · subst hk
        simp [lastLookup, hrest]
      · have hk' : ¬k = a := fun hh => hk hh.symm
        simp [lastLookup, hrest, hk, hk']

theorem mem_foldl_pyDictSet {α β : Type} [DecidableEq α]
    (l : List (α × β)) :
    ∀ (d : List (α × β)) (a : α) (b : β),
      (a, b) ∈ l.foldl (fun d e => pyDictSet d e.1 e.2) d →
        (a, b) ∈ d ∨ (a, b) ∈ l := by
  induction l with
  | nil => intro d a b h; exact Or.inl (by simpa using h)
  | cons e rest ih =>
    intro d a b h
    rcases ih (pyDictSet d e.1 e.2) a b h with h | h
    · rcases mem_pyDictSet d e.1 e.2 a b h with ⟨h1, h2⟩ | h
      · exact Or.inr (by simp [h1, h2, List.mem_cons])
      · exact Or.inl h
    · exact Or.inr (List.mem_cons_of_mem _ h)

theorem pyLookup_of_mem_nodupKeys {α β : Type} [DecidableEq α]
    (d : List (α × β)) (k : α) (v : β)
    (hmem : (k, v) ∈ d) (hnd : (d.map Prod.fst).Nodup) :
    pyLookup d k = some v := by
  induction d with
  | nil => simp at hmem
  | cons kv rest ih =>
    obtain ⟨a, b⟩ := kv
    rw [List.map_cons] at hnd
    have hnd' := List.nodup_cons.mp hnd
    rcases List.mem_cons.mp hmem with h | h
    · injection h with h1 h2
      simp [pyLookup, h1.symm, h2]
    · have hk : a ≠ k := by
        intro hh
        subst hh
        exact hnd'.1 (by simpa using List.mem_map_of_mem Prod.fst h)
      simp only [pyLookup, if_neg hk]
      exact ih h hnd'.2

/-! ## Lemmas about the segmenter -/

/-- Every entry of the final parse dict that is not inherited from the
accumulator comes from a stored part block with a non-empty item match
list, and its value is the item dict built from that block. -/
theorem mem_foldl_parseStep (blocks : List (List Char × List Char)) :
    ∀ (order : List (List Char))
      (parsed : List (List Char × List (List Char × List Char)))
      (p : List Char) (its : List (List Char × List Char)),
      (p, its) ∈ order.foldl (parseStep blocks) parsed →
      (p, its) ∈ parsed ∨
        ∃ bt, pyLookup blocks p = some bt ∧
          (item_matches bt).isEmpty = false ∧
          its = buildItems bt (item_matches bt) := by
  intro order
  induction order with
  | nil => intro parsed p its h; exact Or.inl (by simpa using h)
  | cons part rest ih =>
    intro parsed p its h
    rw [List.foldl_cons] at h
    rcases ih _ p its h with h2 | h2
    · cases hb : pyLookup blocks part with
      | none =>
        simp only [parseStep, hb] at h2
        exact Or.inl h2
      | some bt =>
        by_cases hie : (item_matches bt).isEmpty
        · simp only [parseStep, hb, if_pos hie] at h2
          exact Or.inl h2
        · simp only [parseStep, hb, if_neg hie] at h2
          rcases mem_pyDictSet parsed part _ p its h2 with ⟨h3, h4⟩ | h3
          · subst h3
            exact Or.inr ⟨bt, hb, Bool.eq_false_iff.mpr hie, h4⟩
          · exact Or.inl h3
    · exact Or.inr h2

/-- The keys of the final parse dict: the keys of the accumulator
followed by exactly those labels of the processed order that have a
stored block with at least one item match, in order. -/
theorem keys_foldl_parseStep (blocks : List (List Char × List Char)) :
    ∀ (order : List (List Char))
      (parsed : List (List Char × List (List Char × List Char))),
      order.Nodup →
      (∀ k ∈ order, k ∉ parsed.map Prod.fst) →
      (order.foldl (parseStep blocks) parsed).map Prod.fst =
        parsed.map Prod.fst ++ order.filter (fun p =>
          match pyLookup blocks p with
          | some bt => !(item_matches bt).isEmpty
          | none => false) := by
  intro order
  induction order with
  | nil => intro parsed _ _; simp
  | cons part rest ih =>
    intro parsed hnd hdisj
    have hnd' := List.nodup_cons.mp hnd
    have hdrest : ∀ k ∈ rest, k ∉ parsed.map Prod.fst :=
      fun k hk => hdisj k (List.mem_cons_of_mem _ hk)
    rw [List.foldl_cons, List.filter_cons]
    cases hb : pyLookup blocks part with
    | none =>
      have hstep : parseStep blocks parsed part = parsed := by
        simp [parseStep, hb]
      rw [hstep, ih parsed hnd'.2 hdrest]
      simp [hb]
    | some bt =>
      by_cases hie : (item_matches bt).isEmpty
      · have hstep : parseStep blocks parsed part = parsed := by
          simp [parseStep, hb, hie]
        rw [hstep, ih parsed hnd'.2 hdrest]
        simp [hb, hie]
      · have hstep : parseStep blocks parsed part =
            pyDictSet parsed part (buildItems bt (item_matches bt)) := by
          simp [parseStep, hb, hie]
        have hpart : part ∉ parsed.map Prod.fst :=
          hdisj part (List.mem_cons_self _ _)
        have hkeys : (pyDictSet parsed part
            (buildItems bt (item_matches bt))).map Prod.fst =
            parsed.map Prod.fst ++ [part] := by
          rw [keys_pyDictSet, if_neg hpart]
        have hdisj' : ∀ k ∈ rest, k ∉ (pyDictSet parsed part
            (buildItems bt (item_matches bt))).map Prod.fst := by
          intro k hk
          rw [hkeys]
          intro hmem
          rcases List.mem_append.mp hmem with hmem | hmem
          · exact hdisj k (List.mem_cons_of_mem _ hk) hmem
          · rw [List.mem_singleton] at hmem
            exact hnd'.1 (hmem ▸ hk)
        rw [hstep, ih _ hnd'.2 hdisj', hkeys]
        simp [hb, hie, List.append_assoc]

theorem itemEntries_ne_nil (pt : List Char) (ims : List REMatch)
    (h : ims ≠ []) : itemEntries pt ims ≠ [] := by
  cases ims with
  | nil => exact absurd rfl h
  | cons m rest => simp [itemEntries]

theorem mem_itemEntries (pt : List Char) :
    ∀ (ims : List REMatch) (t c : List Char),
      (t, c) ∈ itemEntries pt ims →
        ∃ m, m ∈ ims ∧ t = normTitle m.group := by
  intro ims
  induction ims with
  | nil => intro t c h; simp [itemEntries] at h
  | cons m rest ih =>
    intro t c h
    rcases List.mem_cons.mp h with h | h
    · exact ⟨m, List.mem_cons_self _ _, congrArg Prod.fst h⟩
    · obtain ⟨m', hm', ht⟩ := ih t c h
      exact ⟨m', List.mem_cons_of_mem _ hm', ht⟩

/-- The spec-side characterization used by the amended C2: the text
slice built from the **last** occurrence of a label in the raw header
list, with the slice end given by the next header after that occurrence
(or the end of the text). -/
def lastOccurrenceSlice (text : List Char) (label : List Char) :
    List (List Char × Nat) → Option (List Char)
  | [] => none
  | (t, st) :: rest =>
    match lastOccurrenceSlice text label rest with
    | some r => some r
    | none =>
      if t = label then some (slice text st (nextStart text.length rest))
      else none

theorem pyLookup_buildBlocks (text : List Char) (label : List Char)
    (hvalid : label ∈ validOrder) :
    ∀ (raw : List (List Char × Nat)) (d : List (List Char × List Char)),
      pyLookup (buildBlocks text raw d) label =
        match lastOccurrenceSlice text label raw with
        | some r => some r
        | none => pyLookup d label := by
  intro raw
  induction raw with
  | nil => intro d; simp [buildBlocks, lastOccurrenceSlice]
  | cons hd rest ih =>
    intro d
    obtain ⟨t, st⟩ := hd
    rw [buildBlocks, ih]
    cases hlast : lastOccurrenceSlice text label rest with
    | some r => simp [lastOccurrenceSlice, hlast]
    | none =>
      by_cases ht : t = label
      · subst ht
        rw [if_pos hvalid, pyLookup_pyDictSet]
        simp [lastOccurrenceSlice, hlast]
      · by_cases htv : t ∈ validOrder
        · rw [if_pos htv, pyLookup_pyDictSet]
          have : ¬label = t := fun hh => ht hh.symm
          simp [lastOccurrenceSlice, hlast, ht, this]
        · rw [if_neg htv]
          simp [lastOccurrenceSlice, hlast, ht]

/-! ## Claim C2: duplicate part headers -/

/-- A text in which the canonical label `PART I` matches the part-header
pattern twice: at offset 0 and at offset 19. -/
def dupPartText : List Char :=
  chars "PART I\nItem 1. A\nx\nPART I\nItem 1. B\ny"

/-- C2, counterexample: with two `PART I` headers (offsets 0 and 19) the
stored block for `PART I` is the slice `[19, 37)` built from the **last**
occurrence, not the slice `[0, 19)` from the first one, and the parsed
output contains item `B` (from the second slice), not item `A`. -/
theorem c2_counterexample :
    raw_parts dupPartText = [(chars "PART I", 0), (chars "PART I", 19)] ∧
      pyLookup (part_blocks dupPartText) (chars "PART I") =
        some (slice dupPartText 19 37) ∧
      slice dupPartText 19 37 ≠ slice dupPartText 0 19 ∧
      parse_10k_parts_and_items dupPartText =
        [(chars "PART I", [(chars "Item 1. B", chars "y")])] := by
  refine ⟨by decide, by decide, by decide, by decide⟩

/-- C2, amended: when the same canonical label matches the line-anchored
part-header pattern more than once, the dict assignment overwrites, so
the part's stored text slice is built from the **last** occurrence of
that label (its start offset, up to the next raw header or the end of
text). -/
theorem c2_amended (text label : List Char) (hvalid : label ∈ validOrder) :
    pyLookup (part_blocks text) label =
      lastOccurrenceSlice text label (raw_parts text) := by
  rw [part_blocks, pyLookup_buildBlocks text label hvalid (raw_parts text) []]
  cases h : lastOccurrenceSlice text label (raw_parts text) with
  | some r => rfl
  | none => rfl

/-- Witness for the amended C2 at `dupPartText`. -/
theorem c2_amended_witness :
    chars "PART I" ∈ validOrder ∧
      pyLookup (part_blocks dupPartText) (chars "PART I") =
        lastOccurrenceSlice dupPartText (chars "PART I")
          (raw_parts dupPartText) :=
  ⟨by decide, c2_amended dupPartText (chars "PART I") (by decide)⟩

/-! ## Claim C3: exactly the canonical parts with items, in order -/

/-- C3: the parts present in the output are exactly the canonical labels
whose stored block has at least one item match, listed in canonical
order (`validOrder.filter` preserves the canonical order irrespective of
where the parts sit in the text), and no part is ever present with an
empty item map. -/
theorem c3_canonical_parts (text : List Char) :
    (parse_10k_parts_and_items text).map Prod.fst =
      validOrder.filter (fun p =>
        match pyLookup (part_blocks text) p with
        | some bt => !(item_matches bt).isEmpty
        | none => false) ∧
      ∀ pr ∈ parse_10k_parts_and_items text, pr.2 ≠ [] := by
  constructor
  · have h := keys_foldl_parseStep (part_blocks text) validOrder []
      (by decide) (by simp)
    simpa [parse_10k_parts_and_items] using h
  · intro pr hpr
    obtain ⟨p, its⟩ := pr
    rcases mem_foldl_parseStep (part_blocks text) validOrder [] p its
        (by simpa [parse_10k_parts_and_items] using hpr) with h | ⟨bt, _, hie, hits⟩
    · simp at h
    · have hne : item_matches bt ≠ [] := by
        intro hh
        rw [hh] at hie
        simp at hie
      rw [hits, buildItems]
      exact foldl_pyDictSet_ne_nil _ _
        (Or.inr (itemEntries_ne_nil bt (item_matches bt) hne))

/-- Witness for C3 at the spec's first example text: `PART I` and
`PART II` are present, in canonical order, and no part has an empty item
map. -/
theorem c3_canonical_parts_witness :
    (parse_10k_parts_and_items (chars
        "PART I\nItem 1. Business\nWe sell widgets.\nPART II\nItem 5. Market\nWe trade publicly.\n")).map
        Prod.fst =
      validOrder.filter (fun p =>
        match pyLookup (part_blocks (chars
            "PART I\nItem 1. Business\nWe sell widgets.\nPART II\nItem 5. Market\nWe trade publicly.\n")) p with
        | some bt => !(item_matches bt).isEmpty
        | none => false) ∧
      ∀ pr ∈ parse_10k_parts_and_items (chars
          "PART I\nItem 1. Business\nWe sell widgets.\nPART II\nItem 5. Market\nWe trade publicly.\n"),
        pr.2 ≠ [] :=
  c3_canonical_parts (chars
    "PART I\nItem 1. Business\nWe sell widgets.\nPART II\nItem 5. Market\nWe trade publicly.\n")

/-! ## Claim C9: item title normalization -/

/-- A text whose item title ends in `"..."`. -/
def ellipsisText : List Char := chars "PART I\nItem 1. A...\nx"

/-- C9, counterexample: the title `"Item 1. A..."` is normalized by a
single left-to-right pass of `replace('..', '.')`, yielding
`"Item 1. A.."` — which still contains the substring `".."`, contradicting
"the emitted title contains no '..' substring". -/
theorem c9_counterexample :
    parse_10k_parts_and_items ellipsisText =
      [(chars "PART I", [(chars "Item 1. A..", chars "x")])] ∧
      chars "Item 1. A.." = chars "Item 1. A" ++ chars ".." := by
  refine ⟨by decide, by decide⟩

/-- C9, amended: every emitted item title is obtained from the matched
group by stripping, collapsing every run of two or more whitespace
characters to a single space, replacing non-overlapping occurrences of
`".."` by `"."` in one left-to-right pass (so the result can still
contain `".."`), and stripping again — that is, it equals
`normTitle` of the matched group. -/
theorem c9_amended (text p : List Char)
    (its : List (List Char × List Char)) (t c : List Char)
    (hp : (p, its) ∈ parse_10k_parts_and_items text)
    (ht : (t, c) ∈ its) :
    ∃ bt m, pyLookup (part_blocks text) p = some bt ∧
      m ∈ item_matches bt ∧ t = normTitle m.group := by
  rcases mem_foldl_parseStep (part_blocks text) validOrder [] p its
      (by simpa [parse_10k_parts_and_items] using hp) with h | ⟨bt, hb, _, hits⟩
  · simp at h
  · subst hits
    rw [buildItems] at ht
    rcases mem_foldl_pyDictSet _ _ t c ht with h | h
    · simp at h
    · obtain ⟨m, hm, htt⟩ := mem_itemEntries bt (item_matches bt) t c h
      exact ⟨bt, m, hb, hm, htt⟩

/-- Witness for the amended C9 at `ellipsisText`. -/
theorem c9_amended_witness :
    (chars "PART I", [(chars "Item 1. A..", chars "x")]) ∈
        parse_10k_parts_and_items ellipsisText ∧
      (chars "Item 1. A..", chars "x") ∈
        [(chars "Item 1. A..", chars "x")] ∧
      ∃ bt m, pyLookup (part_blocks ellipsisText) (chars "PART I") = some bt ∧
        m ∈ item_matches bt ∧ chars "Item 1. A.." = normTitle m.group :=
  ⟨by decide, by decide,
    c9_amended ellipsisText (chars "PART I")
      [(chars "Item 1. A..", chars "x")] (chars "Item 1. A..") (chars "x")
      (by decide) (by decide)⟩

/-! ## Claim C10: duplicate normalized titles keep the last content -/

/-- A part whose two item headers normalize to the same title. -/
def dupItemText : List Char := chars "PART I\nItem 1. A\nx\nItem 1. A\ny"

/-- C10: in every part of the output, the item titles are pairwise
distinct (one dict entry per normalized title), and each title's content
is the content of the **last** item header with that normalized title in
document order. -/
theorem c10_last_duplicate_wins (text p : List Char)
    (its : List (List Char × List Char))
    (hp : (p, its) ∈ parse_10k_parts_and_items text) :
    (its.map Prod.fst).Nodup ∧
      ∃ bt, pyLookup (part_blocks text) p = some bt ∧
        ∀ t c, (t, c) ∈ its →
          lastLookup t (itemEntries bt (item_matches bt)) = some c := by
  rcases mem_foldl_parseStep (part_blocks text) validOrder [] p its
      (by simpa [parse_10k_parts_and_items] using hp) with h | ⟨bt, hb, _, hits⟩
  · simp at h
  · subst hits
    constructor
    · exact nodupKeys_foldl_pyDictSet _ [] (by simp)
    · refine ⟨bt, hb, fun t c htc => ?_⟩
      have hlk : pyLookup (buildItems bt (item_matches bt)) t = some c :=
        pyLookup_of_mem_nodupKeys _ t c htc
          (nodupKeys_foldl_pyDictSet _ [] (by simp))
      rw [buildItems, pyLookup_foldl_pyDictSet] at hlk
      cases hlast : lastLookup t (itemEntries bt (item_matches bt)) with
      | some v =>
        rw [hlast] at hlk
        simpa using hlk
      | none =>
        rw [hlast] at hlk
        simp [pyLookup] at hlk

/-- Witness for C10 at `dupItemText`: the two headers `Item 1. A` (with
contents `x` then `y`) collapse to one entry whose content is `y`. -/
theorem c10_last_duplicate_wins_witness :
    (chars "PART I", [(chars "Item 1. A", chars "y")]) ∈
        parse_10k_parts_and_items dupItemText ∧
      (([(chars "Item 1. A", chars "y")].map Prod.fst).Nodup ∧
        ∃ bt, pyLookup (part_blocks dupItemText) (chars "PART I") = some bt ∧
          ∀ t c, (t, c) ∈ [(chars "Item 1. A", chars "y")] →
            lastLookup t (itemEntries bt (item_matches bt)) = some c) :=
  ⟨by decide,
    c10_last_duplicate_wins dupItemText (chars "PART I")
      [(chars "Item 1. A", chars "y")] (by decide)⟩

/-!
## The reasoning pipeline of `summarize_embedded.py`

The external generation service — `requests.post` to `/api/generate`,
`raise_for_status()` and the extraction of `json()["response"]` — is
modelled by an oracle mapping the prompt to either the response text or a
`GenError` (any exception caught by the `try/except` in the source).
Each pipeline function returns, alongside its result, the list of prompts
it posted to the service, so the number of service calls is observable.
Generation options (`temperature`, `num_predict`/`max_tokens`) only
affect the request body, which the oracle absorbs. -/

/-- Failure kinds of the generation service (any exception raised inside
the `try` block: connection errors, timeouts, HTTP status errors from
`raise_for_status`, malformed JSON). -/
inductive GenError
  | unreachable
  | timeout
  | serviceStatus (code : Nat)
  | malformedResponse

/-- The generation service: prompt in, response text or error out. -/
def GenOracle : Type := List Char → Except GenError (List Char)

/-- Decimal digits of a number, for the `{chunk_num}` interpolations. -/
def natChars (n : Nat) : List Char := chars (toString n)

/-- Lines 76–82: the per-chunk focus instruction. -/
def chunkFocus (chunk_num : Nat) : List Char :=
  if chunk_num = 1 then
    chars "Focus primarily on: Business Model Analysis and Financial Health Assessment"
  else if chunk_num = 2 then
    chars "Focus primarily on: Risk Assessment and Growth Opportunities"
  else
    chars "Focus on: Investment Thesis and synthesis of previous analysis"

/-- Lines 84–102: the per-chunk prompt f-string. -/
def chunkPrompt (company chunk : List Char) (chunk_num total_chunks : Nat) :
    List Char :=
  chars "\n        Based on this portion of the comprehensive 10-K filing summaries for " ++
    company ++ chars " (Part " ++ natChars chunk_num ++ chars " of " ++
    natChars total_chunks ++
    chars "), provide detailed analysis that includes:\n        \n        1. **Business Model Analysis**: How does this company make money and what are their core competitive advantages?\n        2. **Financial Health Assessment**: What do the financial metrics and performance indicators tell us?\n        3. **Risk Assessment**: What are the most significant risks facing this company?\n        4. **Growth Opportunities**: What potential growth drivers and strategic initiatives are mentioned?\n        5. **Investment Thesis**: Based on available information, what would be key investment considerations?\n        \n        " ++
    chunkFocus chunk_num ++
    chars "\n        \n        Please provide specific, actionable insights that synthesize information rather than just repeating bullet points.\n        \n        Company: " ++
    company ++ chars "\n        10-K Summary Data (Part " ++
    natChars chunk_num ++ chars "/" ++ natChars total_chunks ++
    chars "):\n        " ++ chunk ++
    chars "\n        \n        Analysis for Part " ++ natChars chunk_num ++
    chars ":\n        "

/-- Line 121: `f"Analysis unavailable for chunk {chunk_num}"`. -/
def placeholderText (chunk_num : Nat) : List Char :=
  chars "Analysis unavailable for chunk " ++ natChars chunk_num

/-- `generate_reasoning_for_chunk` (lines 62–121): build the prompt, call
the service once; on success return the stripped response, on any error
return the placeholder.  The second component is the list of prompts
posted. -/
def generate_reasoning_for_chunk (gen : GenOracle) (company chunk : List Char)
    (chunk_num total_chunks : Nat) : List Char × List (List Char) :=
  match gen (chunkPrompt company chunk chunk_num total_chunks) with
  | .ok r => (strip r, [chunkPrompt company chunk chunk_num total_chunks])
  | .error _ =>
    (placeholderText chunk_num, [chunkPrompt company chunk chunk_num total_chunks])

/-- Line 142: `f"=== ANALYSIS PART {i} ===\n"`. -/
def analysisMarker (i : Nat) : List Char :=
  chars "=== ANALYSIS PART " ++ natChars i ++ chars " ===\n"

/-- Lines 138–142: the `for i, chunk in enumerate(chunks, 1)` loop,
producing the `chunk_analyses` list and the accumulated call log. -/
def chunkAnalysesLoop (gen : GenOracle) (company : List Char) (total : Nat) :
    List (List Char) → Nat → List (List Char) × List (List Char)
  | [], _ => ([], [])
  | ch :: rest, i =>
    ((analysisMarker i ++ (generate_reasoning_for_chunk gen company ch i total).fst) ::
        (chunkAnalysesLoop gen company total rest (i + 1)).fst,
      (generate_reasoning_for_chunk gen company ch i total).snd ++
        (chunkAnalysesLoop gen company total rest (i + 1)).snd)

/-- Lines 148–161: the synthesis prompt f-string, taking the already
truncated `combined_analysis[:7000]`. -/
def synthPrompt (company truncated : List Char) : List Char :=
  chars "\n            Based on the following multi-part analysis of " ++
    company ++
    chars ", create a comprehensive final synthesis that covers all 5 key areas:\n            \n            1. **Business Model Analysis**: Complete overview of how the company makes money\n            2. **Financial Health Assessment**: Overall financial position and performance\n            3. **Risk Assessment**: All significant risks identified\n            4. **Growth Opportunities**: All growth drivers and strategic initiatives\n            5. **Investment Thesis**: Final recommendation based on complete analysis\n            \n            Previous Analysis Parts:\n            " ++
    truncated ++
    chars "\n            \n            Comprehensive Final Analysis:\n            "

/-- Python exceptions that escape `generate_reasoning` itself: the
`IndexError` from `chunk_analyses[0]` when there are no chunks. -/
inductive PyError
  | indexError

/-- Line 135: `chunks = self.chunk_summaries(all_summaries)` (with the
default `chunk_size = 6000`). -/
def pipelineChunks (all_summaries : List Char) : List (List Char) :=
  chunk_summaries all_summaries 6000

/-- The `chunk_analyses` local of `generate_reasoning`. -/
def chunkAnalyses (gen : GenOracle) (company all_summaries : List Char) :
    List (List Char) :=
  (chunkAnalysesLoop gen company (pipelineChunks all_summaries).length
    (pipelineChunks all_summaries) 1).fst

/-- The prompts posted while producing `chunk_analyses`. -/
def chunkCallLog (gen : GenOracle) (company all_summaries : List Char) :
    List (List Char) :=
  (chunkAnalysesLoop gen company (pipelineChunks all_summaries).length
    (pipelineChunks all_summaries) 1).snd

/-- Line 147: `combined_analysis = "\n\n".join(chunk_analyses)`. -/
def combinedAnalysis (gen : GenOracle) (company all_summaries : List Char) :
    List Char :=
  pyJoin (chars "\n\n") (chunkAnalyses gen company all_summaries)

/-- The synthesis prompt actually posted, over
`combined_analysis[:7000]`. -/
def synthesisPromptOf (gen : GenOracle) (company all_summaries : List Char) :
    List Char :=
  synthPrompt company ((combinedAnalysis gen company all_summaries).take 7000)

/-- `generate_reasoning` (lines 123–183): analyse every chunk (tolerating
per-chunk failure), then, when there is more than one chunk, post one
synthesis call — appending its stripped output on success and returning
the bare concatenation on failure; with a single chunk return
`chunk_analyses[0]` (an `IndexError` when there are no chunks at all).
The second component is the list of prompts posted. -/
def generate_reasoning (gen : GenOracle) (company all_summaries : List Char) :
    Except PyError (List Char) × List (List Char) :=
  if (pipelineChunks all_summaries).length > 1 then
    match gen (synthesisPromptOf gen company all_summaries) with
    | .ok r =>
      (.ok (combinedAnalysis gen company all_summaries ++
          chars "\n\n=== COMPREHENSIVE SYNTHESIS ===\n" ++ strip r),
        chunkCallLog gen company all_summaries ++
          [synthesisPromptOf gen company all_summaries])
    | .error _ =>
      (.ok (combinedAnalysis gen company all_summaries),
        chunkCallLog gen company all_summaries ++
          [synthesisPromptOf gen company all_summaries])
  else
    match chunkAnalyses gen company all_summaries with
    | a :: _ => (.ok a, chunkCallLog gen company all_summaries)
    | [] => (.error PyError.indexError, chunkCallLog gen company all_summaries)

/-! ## Lemmas about the pipeline -/

theorem chunkAnalysesLoop_fst_length (gen : GenOracle) (company : List Char)
    (total : Nat) :
    ∀ (chunks : List (List Char)) (i : Nat),
      (chunkAnalysesLoop gen company total chunks i).fst.length =
        chunks.length := by
  intro chunks
  induction chunks with
  | nil => intro i; rfl
  | cons ch rest ih =>
    intro i
    simp [chunkAnalysesLoop, ih (i + 1)]

theorem chunkAnalysesLoop_snd_length (gen : GenOracle) (company : List Char)
    (total : Nat) :
    ∀ (chunks : List (List Char)) (i : Nat),
      (chunkAnalysesLoop gen company total chunks i).snd.length =
        chunks.length := by
  intro chunks
  induction chunks with
  | nil => intro i; rfl
  | cons ch rest ih =>
    intro i
    have hone : (generate_reasoning_for_chunk gen company ch i total).snd.length = 1 := by
      cases h : gen (chunkPrompt company ch i total) <;>
        simp [generate_reasoning_for_chunk, h]
    simp [chunkAnalysesLoop, ih (i + 1), hone]
    omega

/-- The shape of the `chunk_analyses` list: the analysis of chunk `k`
(1-indexed) prefixed by its index marker, for each chunk in order. -/
theorem chunkAnalysesLoop_shape (gen : GenOracle) (company : List Char)
    (total : Nat) :
    ∀ (chunks : List (List Char)) (i : Nat),
      (chunkAnalysesLoop gen company total chunks i).fst =
        ((List.range' i chunks.length).zip chunks).map
          (fun p => analysisMarker p.1 ++
            (generate_reasoning_for_chunk gen company p.2 p.1 total).fst) := by
  intro chunks
  induction chunks with
  | nil => intro i; rfl
  | cons ch rest ih =>
    intro i
    simp only [chunkAnalysesLoop, List.length_cons, List.range'_succ,
      List.zip_cons_cons, List.map_cons, ih (i + 1)]

/-- When every service call fails, every chunk analysis is the
placeholder for its index. -/
theorem chunkAnalysesLoop_fail (gen : GenOracle) (company : List Char)
    (total : Nat) (hfail : ∀ p, ∃ e, gen p = Except.error e) :
    ∀ (chunks : List (List Char)) (i : Nat),
      (chunkAnalysesLoop gen company total chunks i).fst =
        (List.range' i chunks.length).map
          (fun k => analysisMarker k ++ placeholderText k) := by
  intro chunks
  induction chunks with
  | nil => intro i; rfl
  | cons ch rest ih =>
    intro i
    obtain ⟨e, he⟩ := hfail (chunkPrompt company ch i total)
    simp only [chunkAnalysesLoop, List.length_cons, List.range'_succ,
      List.map_cons, ih (i + 1), generate_reasoning_for_chunk, he]

/-! ## Claim C5: per-chunk failure tolerance -/

/-- A whitespace-only input longer than the chunk size: the packer
returns zero chunks on it. -/
def wsOnlyLong : List Char := List.replicate 6001 ' '

theorem dropWhile_ws_replicate (n : Nat) :
    List.dropWhile isPyWs (List.replicate n ' ') = [] := by
  induction n with
  | zero => rfl
  | succ n ih =>
    have hws : isPyWs ' ' = true := by decide
    simp [List.replicate_succ, List.dropWhile_cons, hws, ih]

theorem strip_replicate_space (n : Nat) :
    strip (List.replicate n ' ') = [] := by
  rw [strip, dropWhile_ws_replicate]
  rfl

theorem chunk_summaries_ws_long (n : Nat) (h : 6000 < n) :
    chunk_summaries (List.replicate n ' ') 6000 = [] := by
  rw [chunk_summaries, if_neg (by simpa using Nat.not_le_of_lt h),
    splitSections_no_eq _
      (fun hm => by simpa using List.eq_of_mem_replicate hm)]
  rw [chunkLoop, if_pos (by rw [strip_replicate_space]; rfl)]
  rfl

/-- C5, counterexample: on a whitespace-only input of 6001 characters the
packer yields zero chunks (`N = 0`), and `generate_reasoning` then raises
an `IndexError` at `chunk_analyses[0]` instead of returning an
(empty-but-valid) result — so the claim fails for the empty chunk
sequence even though every (vacuously, zero) chunk call "fails". -/
theorem c5_counterexample :
    pipelineChunks wsOnlyLong = [] ∧
      (generate_reasoning (fun _ => Except.error GenError.timeout)
          (chars "ACME") wsOnlyLong).fst = Except.error PyError.indexError := by
  have hc : pipelineChunks wsOnlyLong = [] :=
    chunk_summaries_ws_long 6001 (by omega)
  refine ⟨hc, ?_⟩
  rw [generate_reasoning, if_neg (by rw [hc]; simp)]
  have ha : chunkAnalyses (fun _ => Except.error GenError.timeout)
      (chars "ACME") wsOnlyLong = [] := by
    rw [chunkAnalyses, hc]
    rfl
  rw [ha]

/-- C5, amended: for every input that packs into at least one chunk
(`N ≥ 1`), if every `generate` call fails then `generate_reasoning`
returns — with no exception — a result that is exactly the join of the
`N` marker-prefixed placeholder analyses
`"Analysis unavailable for chunk i"`, `i = 1..N`. -/
theorem c5_amended (gen : GenOracle) (company s : List Char)
    (hfail : ∀ p, ∃ e, gen p = Except.error e)
    (hne : pipelineChunks s ≠ []) :
    (generate_reasoning gen company s).fst =
      Except.ok (pyJoin (chars "\n\n")
        ((List.range' 1 (pipelineChunks s).length).map
          (fun k => analysisMarker k ++ placeholderText k))) := by
  have hanalyses : chunkAnalyses gen company s =
      (List.range' 1 (pipelineChunks s).length).map
        (fun k => analysisMarker k ++ placeholderText k) :=
    chunkAnalysesLoop_fail gen company _ hfail _ 1
  by_cases hmulti : (pipelineChunks s).length > 1
  · obtain ⟨e, he⟩ := hfail (synthesisPromptOf gen company s)
    rw [generate_reasoning, if_pos hmulti, he]
    rw [combinedAnalysis, hanalyses]
  · rw [generate_reasoning, if_neg hmulti]
    have hlen : (pipelineChunks s).length = 1 := by
      cases hl : (pipelineChunks s).length with
      | zero => exact absurd (List.length_eq_zero.mp hl) hne
      | succ n =>
        cases n with
        | zero => rfl
        | succ m => exact absurd (hl ▸ by omega) hmulti
    rw [hlen] at hanalyses
    rw [hanalyses, hlen]
    rfl

/-- The all-failing generation service. -/
def genAllFail : GenOracle := fun _ => Except.error GenError.timeout

/-- Witness for the amended C5 at the single-chunk input `"abc"` with an
always-failing service. -/
theorem c5_amended_witness :
    (∀ p, ∃ e, genAllFail p = Except.error e) ∧
      pipelineChunks (chars "abc") ≠ [] ∧
      (generate_reasoning genAllFail (chars "NVDA") (chars "abc")).fst =
        Except.ok (pyJoin (chars "\n\n")
          ((List.range' 1 (pipelineChunks (chars "abc")).length).map
            (fun k => analysisMarker k ++ placeholderText k))) :=
  ⟨fun _ => ⟨GenError.timeout, rfl⟩, by decide,
    c5_amended genAllFail (chars "NVDA") (chars "abc")
      (fun _ => ⟨GenError.timeout, rfl⟩) (by decide)⟩

/-! ## Claim C6: graceful synthesis failure -/

/-- C6: with more than one chunk, when the synthesis call fails the
result is — with no exception — exactly the `"\n\n"`-join of the
per-chunk analyses, each prefixed by its index marker, with no synthesis
section appended. -/
theorem c6_synthesis_failure (gen : GenOracle) (company s : List Char)
    (hmulti : 1 < (pipelineChunks s).length)
    (hfail : ∃ e, gen (synthesisPromptOf gen company s) = Except.error e) :
    (generate_reasoning gen company s).fst =
      Except.ok (pyJoin (chars "\n\n") (chunkAnalyses gen company s)) ∧
      chunkAnalyses gen company s =
        ((List.range' 1 (pipelineChunks s).length).zip (pipelineChunks s)).map
          (fun p => analysisMarker p.1 ++
            (generate_reasoning_for_chunk gen company p.2 p.1
              (pipelineChunks s).length).fst) := by
  obtain ⟨e, he⟩ := hfail
  constructor
  · rw [generate_reasoning, if_pos hmulti, he]
    rfl
  · exact chunkAnalysesLoop_shape gen company _ _ 1

/-! ### A concrete two-chunk input for the C6 witness -/

theorem splitSections_append_sep (l : List Char) :
    ∀ (xs : List Char), '=' ∉ xs →
      splitSections (xs ++ sepEq ++ l) = xs :: splitSections l := by
  intro xs
  induction xs with
  | nil =>
    intro _
    show splitSections ('=' :: '=' :: '=' :: ' ' :: l) = [] :: splitSections l
    rfl
  | cons c cs ih =>
    intro h
    have hc : c ≠ '=' := fun hh => h (hh ▸ List.mem_cons_self _ _)
    have hrec := ih (fun hm => h (List.mem_cons_of_mem _ hm))
    rw [List.cons_append, List.cons_append,
      splitSections_cons_of_ne c _ hc, hrec]

theorem strip_replicate_a (n : Nat) :
    strip (List.replicate n 'a') = List.replicate n 'a' := by
  have hna : isPyWs 'a' = false := by decide
  have hdrop : List.dropWhile isPyWs (List.replicate n 'a') =
      List.replicate n 'a' := by
    cases n with
    | zero => rfl
    | succ m => simp [List.replicate_succ, List.dropWhile_cons, hna]
  rw [strip, hdrop, List.reverse_replicate, hdrop, List.reverse_replicate]

/-- A 6006-character input that packs into exactly two chunks. -/
def bigS : List Char := List.replicate 6001 'a' ++ sepEq ++ chars "b"

theorem pipelineChunks_bigS :
    pipelineChunks bigS =
      [List.replicate 6001 'a', sepEq ++ chars "b"] := by
  have hra : (List.replicate 6001 'a').length = 6001 := List.length_replicate _ _
  have hsb : (sepEq ++ chars "b").length = 5 := rfl
  have hsplit : splitSections bigS =
      [List.replicate 6001 'a', chars "b"] := by
    rw [bigS, splitSections_append_sep (chars "b") _
      (fun hm => by simpa using List.eq_of_mem_replicate hm)]
    rw [splitSections_no_eq (chars "b") (by decide)]
  have hlen : ¬(bigS.length ≤ 6000) := by
    rw [bigS, List.length_append, List.length_append, hra]
    have h4 : sepEq.length = 4 := rfl
    have h1 : (chars "b").length = 1 := rfl
    rw [h4, h1]
    omega
  have hstripa : (strip (List.replicate 6001 'a')).isEmpty = false := by
    rw [strip_replicate_a]
    rfl
  have hstripb : (strip (chars "b")).isEmpty = false := by decide
  have hbeq2 : (chars "b" == List.replicate 6001 'a') = false := by
    rw [beq_eq_false_iff_ne]
    intro h
    have hh := congrArg List.length h
    rw [hra] at hh
    exact absurd hh (by decide)
  have hst1 : sectionText (List.replicate 6001 'a') (List.replicate 6001 'a') =
      List.replicate 6001 'a' := by
    rw [sectionText, if_pos (beq_self_eq_true _)]
  have hst2 : sectionText (List.replicate 6001 'a') (chars "b") =
      sepEq ++ chars "b" := by
    rw [sectionText, if_neg (by rw [hbeq2]; simp)]
  have hempANotNil : (List.replicate 6001 'a').isEmpty = false := rfl
  have hempSb : (sepEq ++ chars "b").isEmpty = false := rfl
  have hstripSb : strip (sepEq ++ chars "b") = sepEq ++ chars "b" := by decide
  rw [pipelineChunks, chunk_summaries, if_neg hlen, hsplit, List.headD_cons]
  rw [chunkLoop, if_neg (by rw [hstripa]; simp), hst1,
    if_neg (by rw [List.length_nil, hra]; omega), if_pos List.isEmpty_nil]
  rw [chunkLoop, if_neg (by rw [hstripb]; simp), hst2,
    if_neg (by rw [hra, hsb]; omega), if_neg (by rw [hempANotNil]; simp)]
  rw [chunkLoop, if_neg (by rw [hempSb]; simp), strip_replicate_a, hstripSb]
  rfl

/-- Witness for C6 at the two-chunk input `bigS` with an always-failing
service: the synthesis call fails and the result is the bare join of the
two marker-prefixed chunk analyses. -/
theorem c6_synthesis_failure_witness :
    1 < (pipelineChunks bigS).length ∧
      (∃ e, genAllFail (synthesisPromptOf genAllFail (chars "NVDA") bigS) =
        Except.error e) ∧
      ((generate_reasoning genAllFail (chars "NVDA") bigS).fst =
        Except.ok (pyJoin (chars "\n\n")
          (chunkAnalyses genAllFail (chars "NVDA") bigS)) ∧
        chunkAnalyses genAllFail (chars "NVDA") bigS =
          ((List.range' 1 (pipelineChunks bigS).length).zip
              (pipelineChunks bigS)).map
            (fun p => analysisMarker p.1 ++
              (generate_reasoning_for_chunk genAllFail (chars "NVDA") p.2 p.1
                (pipelineChunks bigS).length).fst)) :=
  ⟨by rw [pipelineChunks_bigS]; decide, ⟨GenError.timeout, rfl⟩,
    c6_synthesis_failure genAllFail (chars "NVDA") bigS
      (by rw [pipelineChunks_bigS]; decide) ⟨GenError.timeout, rfl⟩⟩

/-! ## Claim C7: single-chunk shortcut -/

/-- C7: when packing yields exactly one chunk, the result is — with no
exception — exactly that chunk's (marker-prefixed) analysis, and exactly
one prompt is posted to the service: no synthesis call is issued. -/
theorem c7_single_chunk (gen : GenOracle) (company s : List Char)
    (hone : (pipelineChunks s).length = 1) :
    (generate_reasoning gen company s).fst =
      Except.ok ((chunkAnalyses gen company s).headD []) ∧
      (generate_reasoning gen company s).snd.length = 1 := by
  obtain ⟨a, ha⟩ : ∃ a, chunkAnalyses gen company s = [a] := by
    have hlen : (chunkAnalyses gen company s).length = 1 := by
      rw [chunkAnalyses, chunkAnalysesLoop_fst_length, hone]
    cases hc : chunkAnalyses gen company s with
    | nil => rw [hc] at hlen; simp at hlen
    | cons x xs =>
      rw [hc] at hlen
      simp at hlen
      exact ⟨x, by rw [hlen]⟩
  have hnm : ¬(pipelineChunks s).length > 1 := by omega
  rw [generate_reasoning, if_neg hnm, ha]
  refine ⟨rfl, ?_⟩
  rw [chunkCallLog, chunkAnalysesLoop_snd_length, hone]

/-- A service that always answers. -/
def genAllOk : GenOracle := fun _ => Except.ok (chars "FINE")

/-- Witness for C7 at the single-chunk input `"hi"`. -/
theorem c7_single_chunk_witness :
    (pipelineChunks (chars "hi")).length = 1 ∧
      ((generate_reasoning genAllOk (chars "NVDA") (chars "hi")).fst =
        Except.ok ((chunkAnalyses genAllOk (chars "NVDA") (chars "hi")).headD []) ∧
        (generate_reasoning genAllOk (chars "NVDA") (chars "hi")).snd.length = 1) :=
  ⟨by decide, c7_single_chunk genAllOk (chars "NVDA") (chars "hi") (by decide)⟩

/-! ## Claim C8: chunk analysis text never empty -/

/-- C8, counterexample: when the service succeeds with an empty (or
all-whitespace) response, the resulting analysis text is the stripped
response — the empty string — contradicting "it is never empty". -/
theorem c8_counterexample :
    (generate_reasoning_for_chunk (fun _ => Except.ok [])
      (chars "ACME") (chars "text") 1 1).fst = [] := rfl

/-- C8, amended: the analysis text is either the whitespace-stripped
model output (empty exactly when the model output strips to empty) or
the failure placeholder; the placeholder branch is never empty. -/
theorem c8_amended (gen : GenOracle) (company chunk : List Char)
    (i total : Nat) :
    (∃ r, gen (chunkPrompt company chunk i total) = Except.ok r ∧
        (generate_reasoning_for_chunk gen company chunk i total).fst =
          strip r) ∨
      (∃ e, gen (chunkPrompt company chunk i total) = Except.error e ∧
        (generate_reasoning_for_chunk gen company chunk i total).fst =
          placeholderText i ∧
        placeholderText i ≠ []) := by
  cases h : gen (chunkPrompt company chunk i total) with
  | ok r =>
    exact Or.inl ⟨r, rfl, by simp [generate_reasoning_for_chunk, h]⟩
  | error e =>
    refine Or.inr ⟨e, rfl, by simp [generate_reasoning_for_chunk, h], ?_⟩
    rw [placeholderText]
    exact List.append_ne_nil_of_left_ne_nil (by decide) _

end FinanceHelper
